import Mathlib

/-!
Verification of the Black-Scholes put-pricing functions of the notebook
"Put-Call Parity of Vanilla European Options".

The notebook defines four pure numeric functions:
  put_option_price          (numpy/scipy implementation, no dividend)
  put_option_price_sym      (sympy implementation, no dividend)
  put_option_price_div      (numpy/scipy implementation, continuous dividend q)
  put_option_price_div_sym  (sympy implementation, continuous dividend q)
Each maps real market parameters to a real put premium by evaluating a
closed-form expression in log, sqrt, exp and the standard normal CDF.
We embed them over the real numbers: numpy/sympy log, sqrt, exp become
Real.log, Real.sqrt, Real.exp, and both scipy.stats.norm.cdf(x, 0.0, 1.0)
and sympy.statistics.Normal(0.0, 1.0).cdf(x) become the mathematical
standard normal cumulative distribution function, defined below as a
Lebesgue integral of the Gaussian kernel.
-/

open MeasureTheory Filter Set Topology

/-- Gaussian kernel exp(-t^2/2), the integrand of the standard normal CDF
used (via the error function) by scipy.stats.norm.cdf and sympy's Normal.cdf. -/
noncomputable def gauss (t : ℝ) : ℝ := Real.exp (-(1 / 2) * t ^ 2)

/-- Standard normal cumulative distribution function: the mathematical
function computed by scipy.stats.norm.cdf(x, 0.0, 1.0) and by
sympy.statistics.Normal(0.0, 1.0).cdf(x) in the notebook. -/
noncomputable def normCdf (x : ℝ) : ℝ :=
  (Real.sqrt (2 * Real.pi))⁻¹ * ∫ t in Iic x, gauss t

theorem gauss_pos (t : ℝ) : 0 < gauss t := Real.exp_pos _

theorem gauss_nonneg (t : ℝ) : 0 ≤ gauss t := (gauss_pos t).le

theorem gauss_le_one (t : ℝ) : gauss t ≤ 1 := by
  have h : -(1 / 2) * t ^ 2 ≤ 0 := by nlinarith [sq_nonneg t]
  calc Real.exp (-(1 / 2) * t ^ 2) ≤ Real.exp 0 := Real.exp_le_exp.mpr h
  _ = 1 := Real.exp_zero

theorem gauss_neg (t : ℝ) : gauss (-t) = gauss t := by simp [gauss]

theorem continuous_gauss : Continuous gauss :=
  Real.continuous_exp.comp (continuous_const.mul (continuous_pow 2))

theorem integrable_gauss : Integrable gauss := by
  have h : (0 : ℝ) < 1 / 2 := by norm_num
  exact integrable_exp_neg_mul_sq h

theorem sqrt_two_pi_pos : 0 < Real.sqrt (2 * Real.pi) :=
  Real.sqrt_pos.mpr (by positivity)

theorem integral_gauss : ∫ t, gauss t = Real.sqrt (2 * Real.pi) := by
  have h := integral_gaussian (1 / 2)
  have h2 : Real.pi / (1 / 2) = 2 * Real.pi := by ring
  rw [h2] at h
  simpa [gauss] using h

theorem integral_gauss_Ioi_zero : ∫ t in Ioi (0 : ℝ), gauss t = Real.sqrt (2 * Real.pi) / 2 := by
  have h := integral_gaussian_Ioi (1 / 2)
  have h2 : Real.pi / (1 / 2) = 2 * Real.pi := by ring
  rw [h2] at h
  simpa [gauss] using h

theorem integral_gauss_Iic_zero : ∫ t in Iic (0 : ℝ), gauss t = Real.sqrt (2 * Real.pi) / 2 := by
  have hm : MeasurableSet (Iic (0 : ℝ)) := measurableSet_Iic
  have h := integral_add_compl hm integrable_gauss
  rw [compl_Iic, integral_gauss_Ioi_zero, integral_gauss] at h
  linarith

theorem normCdf_zero : normCdf 0 = 1 / 2 := by
  unfold normCdf
  rw [integral_gauss_Iic_zero, mul_div_assoc', inv_mul_cancel₀ (ne_of_gt sqrt_two_pi_pos)]

theorem normCdf_sub_normCdf (a b : ℝ) :
    normCdf b - normCdf a = (Real.sqrt (2 * Real.pi))⁻¹ * ∫ t in a..b, gauss t := by
  unfold normCdf
  rw [← mul_sub,
    intervalIntegral.integral_Iic_sub_Iic integrable_gauss.integrableOn
      integrable_gauss.integrableOn]

theorem normCdf_eq_half_add (x : ℝ) :
    normCdf x = 1 / 2 + (Real.sqrt (2 * Real.pi))⁻¹ * ∫ t in (0 : ℝ)..x, gauss t := by
  have h := normCdf_sub_normCdf 0 x
  rw [normCdf_zero] at h
  linarith

theorem normCdf_nonneg (x : ℝ) : 0 ≤ normCdf x :=
  mul_nonneg (inv_nonneg.mpr sqrt_two_pi_pos.le)
    (setIntegral_nonneg measurableSet_Iic fun t _ => gauss_nonneg t)

theorem normCdf_mono {a b : ℝ} (h : a ≤ b) : normCdf a ≤ normCdf b := by
  have hs := normCdf_sub_normCdf a b
  have hi : 0 ≤ ∫ t in a..b, gauss t :=
    intervalIntegral.integral_nonneg h fun t _ => gauss_nonneg t
  nlinarith [inv_nonneg.mpr sqrt_two_pi_pos.le]

theorem normCdf_pos (x : ℝ) : 0 < normCdf x := by
  have hs := normCdf_sub_normCdf (x - 1) x
  have hi : 0 < ∫ t in (x - 1)..x, gauss t :=
    intervalIntegral.intervalIntegral_pos_of_pos
      (continuous_gauss.intervalIntegrable _ _) gauss_pos (by linarith)
  have hc : 0 < (Real.sqrt (2 * Real.pi))⁻¹ := inv_pos.mpr sqrt_two_pi_pos
  nlinarith [normCdf_nonneg (x - 1)]

theorem integral_Iic_gauss_neg (x : ℝ) :
    ∫ t in Iic (-x), gauss t = (∫ t, gauss t) - ∫ t in Iic x, gauss t := by
  have h1 : ∫ t in Iic (-x), gauss t = ∫ t, indicator (Iic (-x)) gauss t :=
    (MeasureTheory.integral_indicator measurableSet_Iic).symm
  have h2 : ∫ t, indicator (Iic (-x)) gauss t = ∫ t, indicator (Iic (-x)) gauss (-t) :=
    (integral_neg_eq_self _ _).symm
  have h3 : (fun t => indicator (Iic (-x)) gauss (-t)) = indicator (Ici x) gauss := by
    funext t
    by_cases ht : x ≤ t
    · have m1 : -t ∈ Iic (-x) := by simpa using ht
      have m2 : t ∈ Ici x := ht
      rw [indicator_of_mem m1, indicator_of_mem m2, gauss_neg]
    · have m1 : -t ∉ Iic (-x) := by simpa using ht
      have m2 : t ∉ Ici x := ht
      rw [indicator_of_not_mem m1, indicator_of_not_mem m2]
  have h4 : ∫ t, indicator (Ici x) gauss t = ∫ t in Ici x, gauss t :=
    MeasureTheory.integral_indicator measurableSet_Ici
  have hm : MeasurableSet (Iio x) := measurableSet_Iio
  have h5 := integral_add_compl hm integrable_gauss
  rw [compl_Iio] at h5
  have h6 : ∫ t in Iio x, gauss t = ∫ t in Iic x, gauss t :=
    setIntegral_congr_set Iio_ae_eq_Iic
  rw [h1, h2, h3, h4]
  linarith

theorem normCdf_neg (x : ℝ) : normCdf (-x) = 1 - normCdf x := by
  unfold normCdf
  rw [integral_Iic_gauss_neg, mul_sub, integral_gauss,
    inv_mul_cancel₀ (ne_of_gt sqrt_two_pi_pos)]

theorem normCdf_le_one (x : ℝ) : normCdf x ≤ 1 := by
  have h := normCdf_neg x
  have h2 := normCdf_nonneg (-x)
  linarith

theorem normCdf_add_normCdf_neg (x : ℝ) : normCdf x + normCdf (-x) = 1 := by
  rw [normCdf_neg]; ring

/-- Translation identity for the Gaussian integral over a half-line. -/
theorem integral_Iic_gauss_sub (a s : ℝ) :
    ∫ t in Iic a, gauss (t - s) = ∫ t in Iic (a - s), gauss t := by
  have h1 : ∫ t in Iic a, gauss (t - s) = ∫ t, indicator (Iic a) (fun u => gauss (u - s)) t :=
    (MeasureTheory.integral_indicator measurableSet_Iic).symm
  have h3 : (fun t => indicator (Iic a) (fun u => gauss (u - s)) t) =
      fun t => indicator (Iic (a - s)) gauss (t + -s) := by
    funext t
    by_cases ht : t ≤ a
    · have m1 : t ∈ Iic a := ht
      have m2 : t + -s ∈ Iic (a - s) := by
        simp only [mem_Iic, sub_eq_add_neg]
        exact add_le_add_right ht _
      rw [indicator_of_mem m1, indicator_of_mem m2]
      norm_num [sub_eq_add_neg]
    · have m1 : t ∉ Iic a := ht
      have m2 : t + -s ∉ Iic (a - s) := by
        simp only [mem_Iic, sub_eq_add_neg, not_le] at ht ⊢
        exact add_lt_add_right ht _
      rw [indicator_of_not_mem m1, indicator_of_not_mem m2]
  have h4 : ∫ t, indicator (Iic (a - s)) gauss (t + -s) = ∫ t, indicator (Iic (a - s)) gauss t :=
    integral_add_right_eq_self _ _
  rw [h1, h3, h4, MeasureTheory.integral_indicator measurableSet_Iic]

theorem integrable_gauss_sub (s : ℝ) : Integrable fun t => gauss (t - s) := by
  have h := integrable_gauss.comp_sub_right s
  simpa using h

/-!
Source embeddings.

The notebook functions are pure numeric formulas; Python floats are
idealised as real numbers (the call `S = float(S)` is the identity here),
`np.log`, `np.sqrt`, `np.exp` become `Real.log`, `Real.sqrt`, `Real.exp`,
and `si.stats.norm.cdf(x, 0.0, 1.0)` becomes `normCdf x`.
-/

/-- Embedding of the notebook function put_option_price(S, K, T, r, sigma):
d1 = (np.log(S / K) + (r + 0.5 * sigma ** 2) * T) / (sigma * np.sqrt(T)),
d2 = (np.log(S / K) + (r - 0.5 * sigma ** 2) * T) / (sigma * np.sqrt(T)),
returns K * np.exp(-r * T) * norm.cdf(-d2) - S * norm.cdf(-d1). -/
noncomputable def put_option_price (S K T r sigma : ℝ) : ℝ :=
  K * Real.exp (-r * T) *
      normCdf (-((Real.log (S / K) + (r - 0.5 * sigma ^ 2) * T) / (sigma * Real.sqrt T))) -
    S * normCdf (-((Real.log (S / K) + (r + 0.5 * sigma ^ 2) * T) / (sigma * Real.sqrt T)))

/-- Embedding of the notebook function put_option_price_sym(S, K, T, r, sigma):
the same formula written with sympy (sy.ln, sy.sqrt, sy.exp and
systats.Normal(0.0, 1.0).cdf), which denote the same real functions. -/
noncomputable def put_option_price_sym (S K T r sigma : ℝ) : ℝ :=
  K * Real.exp (-r * T) *
      normCdf (-((Real.log (S / K) + (r - 0.5 * sigma ^ 2) * T) / (sigma * Real.sqrt T))) -
    S * normCdf (-((Real.log (S / K) + (r + 0.5 * sigma ^ 2) * T) / (sigma * Real.sqrt T)))

/-- Embedding of the notebook function put_option_price_div(S, K, T, r, sigma, q).
Note that in the source d1 and d2 are computed exactly as in
put_option_price - the dividend rate q does NOT appear in them - and q
only enters through the factor np.exp(-q * T) multiplying S in the result:
K * np.exp(-r * T) * norm.cdf(-d2) - S * np.exp(-q * T) * norm.cdf(-d1). -/
noncomputable def put_option_price_div (S K T r sigma q : ℝ) : ℝ :=
  K * Real.exp (-r * T) *
      normCdf (-((Real.log (S / K) + (r - 0.5 * sigma ^ 2) * T) / (sigma * Real.sqrt T))) -
    S * Real.exp (-q * T) *
      normCdf (-((Real.log (S / K) + (r + 0.5 * sigma ^ 2) * T) / (sigma * Real.sqrt T)))

/-- Embedding of the notebook function put_option_price_div_sym(S, K, T, r, sigma, q):
the sympy variant of put_option_price_div, with an identical formula. -/
noncomputable def put_option_price_div_sym (S K T r sigma q : ℝ) : ℝ :=
  K * Real.exp (-r * T) *
      normCdf (-((Real.log (S / K) + (r - 0.5 * sigma ^ 2) * T) / (sigma * Real.sqrt T))) -
    S * Real.exp (-q * T) *
      normCdf (-((Real.log (S / K) + (r + 0.5 * sigma ^ 2) * T) / (sigma * Real.sqrt T)))

/-- The Black-Scholes call price for dividend-paying assets as displayed in the
notebook markdown, C(S,t) = S e^(-qT) N(d1) - K e^(-rT) N(d2), evaluated with
the same d1 and d2 that put_option_price_div computes. -/
noncomputable def call_option_price_div (S K T r sigma q : ℝ) : ℝ :=
  S * Real.exp (-q * T) *
      normCdf ((Real.log (S / K) + (r + 0.5 * sigma ^ 2) * T) / (sigma * Real.sqrt T)) -
    K * Real.exp (-r * T) *
      normCdf ((Real.log (S / K) + (r - 0.5 * sigma ^ 2) * T) / (sigma * Real.sqrt T))

/-- Dividend-adjusted put price exactly as the specification states it:
d1 = (ln(S/K) + (r - q + 0.5 sigma^2) T) / (sigma sqrt T), d2 = d1 - sigma sqrt T,
price = K e^(-rT) N(-d2) - S e^(-qT) N(-d1).  This clearly named second
definition follows the words of the specification and exists only to be
compared with the source embedding put_option_price_div. -/
noncomputable def put_option_price_div_specFormula (S K T r sigma q : ℝ) : ℝ :=
  K * Real.exp (-r * T) *
      normCdf (-((Real.log (S / K) + (r - q + 0.5 * sigma ^ 2) * T) / (sigma * Real.sqrt T) -
        sigma * Real.sqrt T)) -
    S * Real.exp (-q * T) *
      normCdf (-((Real.log (S / K) + (r - q + 0.5 * sigma ^ 2) * T) / (sigma * Real.sqrt T)))

/-- Error taxonomy named by the specification (InvalidInput, DomainError). -/
inductive PricingError where
  | invalidInput : PricingError
  | domainError : PricingError
deriving DecidableEq

/-- Translation of put_option_price into an error monad.  The source body
contains no validation branch and no raise: every input flows straight into
the formula, so the error-monad translation is unconditionally Except.ok of
the formula value. -/
noncomputable def put_option_price_run (S K T r sigma : ℝ) : Except PricingError ℝ :=
  Except.ok (put_option_price S K T r sigma)

/-- Translation of put_option_price_div into an error monad; like
put_option_price_run it has no error path because the source has none. -/
noncomputable def put_option_price_div_run (S K T r sigma q : ℝ) : Except PricingError ℝ :=
  Except.ok (put_option_price_div S K T r sigma q)

/-- Claim C5: for every valid parameter set, the Black-Scholes call price
S e^(-qT) N(d1) - K e^(-rT) N(d2), with the same d1 and d2 the put function
computes, minus the put price returned by put_option_price_div equals
S e^(-qT) - K e^(-rT) within tolerance 1e-8 (in fact exactly). -/
theorem put_call_parity_div (S K T r sigma q : ℝ) (hS : 0 < S) (hK : 0 < K)
    (hT : 0 < T) (hsigma : 0 < sigma) :
    |call_option_price_div S K T r sigma q - put_option_price_div S K T r sigma q -
      (S * Real.exp (-q * T) - K * Real.exp (-r * T))| ≤ 1 / 100000000 := by
  have h1 := normCdf_add_normCdf_neg
    ((Real.log (S / K) + (r + 0.5 * sigma ^ 2) * T) / (sigma * Real.sqrt T))
  have h2 := normCdf_add_normCdf_neg
    ((Real.log (S / K) + (r - 0.5 * sigma ^ 2) * T) / (sigma * Real.sqrt T))
  have hz : call_option_price_div S K T r sigma q - put_option_price_div S K T r sigma q -
      (S * Real.exp (-q * T) - K * Real.exp (-r * T)) = 0 := by
    unfold call_option_price_div put_option_price_div
    linear_combination (S * Real.exp (-q * T)) * h1 - (K * Real.exp (-r * T)) * h2
  rw [hz]
  norm_num

/-- Witness for put_call_parity_div at S=1, K=1, T=1, r=0, sigma=1, q=0. -/
theorem put_call_parity_div_witness :
    |call_option_price_div 1 1 1 0 1 0 - put_option_price_div 1 1 1 0 1 0 -
      (1 * Real.exp (-0 * 1) - 1 * Real.exp (-0 * 1))| ≤ 1 / 100000000 :=
  put_call_parity_div 1 1 1 0 1 0 (by norm_num) (by norm_num) (by norm_num) (by norm_num)

/-- Claim C6: for every valid input, the dividend-paying implementation with
q = 0 coincides with the non-dividend implementation. -/
theorem putDiv_q_zero_eq_put (S K T r sigma : ℝ) (hS : 0 < S) (hK : 0 < K)
    (hT : 0 < T) (hsigma : 0 < sigma) :
    put_option_price_div S K T r sigma 0 = put_option_price S K T r sigma := by
  unfold put_option_price_div put_option_price
  norm_num

/-- Witness for putDiv_q_zero_eq_put at S=1, K=1, T=1, r=0, sigma=1. -/
theorem putDiv_q_zero_eq_put_witness :
    put_option_price_div 1 1 1 0 1 0 = put_option_price 1 1 1 0 1 :=
  putDiv_q_zero_eq_put 1 1 1 0 1 (by norm_num) (by norm_num) (by norm_num) (by norm_num)

/-- Claim C10: on valid inputs the numpy/scipy implementations and the sympy
implementations define the same real-valued functions; in the real-number
embedding the two bodies are the same composition of log, sqrt, exp and the
standard normal CDF, so the values coincide. -/
theorem sym_implementations_agree (S K T r sigma q : ℝ) (hS : 0 < S) (hK : 0 < K)
    (hT : 0 < T) (hsigma : 0 < sigma) :
    put_option_price S K T r sigma = put_option_price_sym S K T r sigma ∧
      put_option_price_div S K T r sigma q = put_option_price_div_sym S K T r sigma q :=
  ⟨rfl, rfl⟩

/-- Witness for sym_implementations_agree at S=1, K=1, T=1, r=0, sigma=1, q=0. -/
theorem sym_implementations_agree_witness :
    put_option_price 1 1 1 0 1 = put_option_price_sym 1 1 1 0 1 ∧
      put_option_price_div 1 1 1 0 1 0 = put_option_price_div_sym 1 1 1 0 1 0 :=
  sym_implementations_agree 1 1 1 0 1 0 (by norm_num) (by norm_num) (by norm_num) (by norm_num)

/-- Claim C2, counterexample: at the invalid input S = -5 (K=60, T=1/2,
r=3/100, sigma=1/4) the source function does not fail with a structured
InvalidInput error; its error-monad translation returns Except.ok. -/
theorem putRun_no_invalidInput_error :
    ¬ put_option_price_run (-5) 60 (1 / 2) (3 / 100) (1 / 4) =
      Except.error PricingError.invalidInput := by
  unfold put_option_price_run
  intro h
  exact Except.noConfusion h

/-- Claim C2, amended: the pricing functions perform no input validation at
all.  For every input, including those with S <= 0, K <= 0, T <= 0 or
sigma <= 0 (T = 0 included), they evaluate the formula unconditionally and
return a value, never a structured InvalidInput or DomainError failure. -/
theorem pricing_functions_never_error (S K T r sigma q : ℝ)
    (h : S ≤ 0 ∨ K ≤ 0 ∨ T ≤ 0 ∨ sigma ≤ 0) :
    put_option_price_run S K T r sigma = Except.ok (put_option_price S K T r sigma) ∧
      put_option_price_div_run S K T r sigma q =
        Except.ok (put_option_price_div S K T r sigma q) :=
  ⟨rfl, rfl⟩

/-- Witness for pricing_functions_never_error at the invalid input S = -5. -/
theorem pricing_functions_never_error_witness :
    put_option_price_run (-5) 60 (1 / 2) (3 / 100) (1 / 4) =
        Except.ok (put_option_price (-5) 60 (1 / 2) (3 / 100) (1 / 4)) ∧
      put_option_price_div_run (-5) 60 (1 / 2) (3 / 100) (1 / 4) 0 =
        Except.ok (put_option_price_div (-5) 60 (1 / 2) (3 / 100) (1 / 4) 0) :=
  pricing_functions_never_error (-5) 60 (1 / 2) (3 / 100) (1 / 4) 0 (Or.inl (by norm_num))

/-!
Integral representation of the put price.  Writing s = sigma * sqrt T, the
S-term of the put formula is a translated Gaussian half-line integral over
the same half-line Iic (-d2) as the K-term, and on that half-line the
translated integrand is dominated by the K-term integrand, with the
threshold exactly at -d2.  This yields non-negativity and strict
monotonicity in the strike without any differentiation.
-/

theorem gauss_shift (u s : ℝ) : gauss (u - s) = gauss u * Real.exp (u * s - s ^ 2 / 2) := by
  unfold gauss
  rw [← Real.exp_add]
  congr 1
  ring

theorem normCdf_shift (a s : ℝ) :
    normCdf (a - s) = (Real.sqrt (2 * Real.pi))⁻¹ * ∫ t in Iic a, gauss (t - s) := by
  unfold normCdf
  rw [integral_Iic_gauss_sub]

/-- On the half-line u <= -d2, the translated and weighted Gaussian S-term
integrand is dominated by the K-term integrand of the put formula. -/
theorem shift_term_le (S K T r sigma : ℝ) (hS : 0 < S) (hK : 0 < K) (hT : 0 < T)
    (hsigma : 0 < sigma) (u : ℝ)
    (hu : u ≤ -((Real.log (S / K) + (r - 0.5 * sigma ^ 2) * T) / (sigma * Real.sqrt T))) :
    S * gauss (u - sigma * Real.sqrt T) ≤ K * Real.exp (-r * T) * gauss u := by
  have hsqT : 0 < Real.sqrt T := Real.sqrt_pos.mpr hT
  have hs : 0 < sigma * Real.sqrt T := mul_pos hsigma hsqT
  have hs2 : (sigma * Real.sqrt T) ^ 2 = sigma ^ 2 * T := by
    rw [mul_pow, Real.sq_sqrt hT.le]
  have hSK : 0 < S / K := div_pos hS hK
  rw [gauss_shift]
  have hexp : Real.exp (u * (sigma * Real.sqrt T) - (sigma * Real.sqrt T) ^ 2 / 2) ≤
      Real.exp (-Real.log (S / K) - r * T) := by
    apply Real.exp_le_exp.mpr
    have hu2 : u * (sigma * Real.sqrt T) ≤
        -((Real.log (S / K) + (r - 0.5 * sigma ^ 2) * T) / (sigma * Real.sqrt T)) *
          (sigma * Real.sqrt T) :=
      mul_le_mul_of_nonneg_right hu hs.le
    rw [neg_mul, div_mul_cancel₀ _ (ne_of_gt hs)] at hu2
    nlinarith [hs2]
  have hgu : 0 < gauss u := gauss_pos u
  have hSe : S * Real.exp (-Real.log (S / K) - r * T) = K * Real.exp (-r * T) := by
    rw [sub_eq_add_neg, Real.exp_add, Real.exp_neg, Real.exp_log hSK]
    field_simp
  calc S * (gauss u * Real.exp (u * (sigma * Real.sqrt T) - (sigma * Real.sqrt T) ^ 2 / 2)) =
      S * Real.exp (u * (sigma * Real.sqrt T) - (sigma * Real.sqrt T) ^ 2 / 2) * gauss u := by
        ring
  _ ≤ S * Real.exp (-Real.log (S / K) - r * T) * gauss u := by
      apply mul_le_mul_of_nonneg_right _ hgu.le
      exact mul_le_mul_of_nonneg_left hexp hS.le
  _ = K * Real.exp (-r * T) * gauss u := by rw [hSe]

/-- The d1 argument of the put formula equals the d2 argument plus
sigma * sqrt T, for T > 0 and sigma > 0. -/
theorem d1_eq_d2_add (S K T r sigma : ℝ) (hT : 0 < T) (hsigma : 0 < sigma) :
    (Real.log (S / K) + (r + 0.5 * sigma ^ 2) * T) / (sigma * Real.sqrt T) =
      (Real.log (S / K) + (r - 0.5 * sigma ^ 2) * T) / (sigma * Real.sqrt T) +
        sigma * Real.sqrt T := by
  have hsqT : 0 < Real.sqrt T := Real.sqrt_pos.mpr hT
  have hs : sigma * Real.sqrt T ≠ 0 := ne_of_gt (mul_pos hsigma hsqT)
  have hs2 : (sigma * Real.sqrt T) ^ 2 = sigma ^ 2 * T := by
    rw [mul_pow, Real.sq_sqrt hT.le]
  field_simp
  linear_combination (-1 : ℝ) * hs2

/-- The S-term of the put formula never exceeds the K-term: the heart of
non-negativity of the Black-Scholes put price. -/
theorem S_term_le_K_term (S K T r sigma : ℝ) (hS : 0 < S) (hK : 0 < K)
    (hT : 0 < T) (hsigma : 0 < sigma) :
    S * normCdf (-((Real.log (S / K) + (r + 0.5 * sigma ^ 2) * T) / (sigma * Real.sqrt T))) ≤
      K * Real.exp (-r * T) *
        normCdf (-((Real.log (S / K) + (r - 0.5 * sigma ^ 2) * T) / (sigma * Real.sqrt T))) := by
  have hc : 0 ≤ (Real.sqrt (2 * Real.pi))⁻¹ := (inv_pos.mpr sqrt_two_pi_pos).le
  have harg : -((Real.log (S / K) + (r + 0.5 * sigma ^ 2) * T) / (sigma * Real.sqrt T)) =
      -((Real.log (S / K) + (r - 0.5 * sigma ^ 2) * T) / (sigma * Real.sqrt T)) -
        sigma * Real.sqrt T := by
    rw [d1_eq_d2_add S K T r sigma hT hsigma]; ring
  rw [harg, normCdf_shift]
  unfold normCdf
  have hfS : IntegrableOn (fun t => S * gauss (t - sigma * Real.sqrt T))
      (Iic (-((Real.log (S / K) + (r - 0.5 * sigma ^ 2) * T) / (sigma * Real.sqrt T)))) :=
    ((integrable_gauss_sub (sigma * Real.sqrt T)).const_mul S).integrableOn
  have hfK : IntegrableOn (fun t => K * Real.exp (-r * T) * gauss t)
      (Iic (-((Real.log (S / K) + (r - 0.5 * sigma ^ 2) * T) / (sigma * Real.sqrt T)))) :=
    (integrable_gauss.const_mul (K * Real.exp (-r * T))).integrableOn
  have hmono := setIntegral_mono_on hfS hfK measurableSet_Iic
    (fun u hu => shift_term_le S K T r sigma hS hK hT hsigma u (mem_Iic.mp hu))
  rw [MeasureTheory.integral_mul_left, MeasureTheory.integral_mul_left] at hmono
  nlinarith [hmono]

/-- Non-negativity of the embedded non-dividend put price on valid inputs. -/
theorem put_option_price_nonneg (S K T r sigma : ℝ) (hS : 0 < S) (hK : 0 < K)
    (hT : 0 < T) (hsigma : 0 < sigma) : 0 ≤ put_option_price S K T r sigma := by
  have h := S_term_le_K_term S K T r sigma hS hK hT hsigma
  unfold put_option_price
  linarith

/-- Claim C4, amended: on valid inputs the put prices are non-negative,
provided the dividend yield q is non-negative (for put_option_price_div);
for q < 0 the dividend implementation can return a negative number. -/
theorem put_prices_nonneg (S K T r sigma q : ℝ) (hS : 0 < S) (hK : 0 < K)
    (hT : 0 < T) (hsigma : 0 < sigma) (hq : 0 ≤ q) :
    0 ≤ put_option_price S K T r sigma ∧ 0 ≤ put_option_price_div S K T r sigma q := by
  refine ⟨put_option_price_nonneg S K T r sigma hS hK hT hsigma, ?_⟩
  have h := S_term_le_K_term S K T r sigma hS hK hT hsigma
  have hexp : Real.exp (-q * T) ≤ 1 := by
    apply Real.exp_le_one_iff.mpr
    have := mul_nonneg hq hT.le
    linarith
  have hphi : 0 ≤ normCdf
      (-((Real.log (S / K) + (r + 0.5 * sigma ^ 2) * T) / (sigma * Real.sqrt T))) :=
    normCdf_nonneg _
  unfold put_option_price_div
  nlinarith [mul_nonneg (mul_nonneg hS.le hphi) (sub_nonneg.mpr hexp)]

/-- Witness for put_prices_nonneg at S=1, K=1, T=1, r=0, sigma=1, q=0. -/
theorem put_prices_nonneg_witness :
    0 ≤ put_option_price 1 1 1 0 1 ∧ 0 ≤ put_option_price_div 1 1 1 0 1 0 :=
  put_prices_nonneg 1 1 1 0 1 0 (by norm_num) (by norm_num) (by norm_num) (by norm_num)
    (by norm_num)

/-- Monotone growth of a weighted difference of Gaussian tails: moving the
truncation point right cannot decrease it, as long as the translated term is
dominated pointwise up to the new truncation point. -/
theorem weighted_tail_mono (a b s cK cS : ℝ) (hab : a ≤ b)
    (hdom : ∀ u, u ≤ b → cS * gauss (u - s) ≤ cK * gauss u) :
    cK * normCdf a - cS * normCdf (a - s) ≤ cK * normCdf b - cS * normCdf (b - s) := by
  have hc : 0 ≤ (Real.sqrt (2 * Real.pi))⁻¹ := (inv_pos.mpr sqrt_two_pi_pos).le
  have h1 := normCdf_sub_normCdf a b
  have h2 : normCdf (b - s) - normCdf (a - s) =
      (Real.sqrt (2 * Real.pi))⁻¹ * ∫ u in a..b, gauss (u - s) := by
    rw [normCdf_sub_normCdf (a - s) (b - s)]
    congr 1
    exact (intervalIntegral.integral_comp_sub_right gauss s).symm
  have hfK : IntervalIntegrable (fun u => cK * gauss u) MeasureTheory.volume a b :=
    (continuous_const.mul continuous_gauss).intervalIntegrable a b
  have hfS : IntervalIntegrable (fun u => cS * gauss (u - s)) MeasureTheory.volume a b :=
    (continuous_const.mul (continuous_gauss.comp (continuous_id.sub continuous_const))).intervalIntegrable a b
  have hint : 0 ≤ ∫ u in a..b, (cK * gauss u - cS * gauss (u - s)) :=
    intervalIntegral.integral_nonneg hab fun u hu => sub_nonneg.mpr (hdom u hu.2)
  have hsplit : ∫ u in a..b, (cK * gauss u - cS * gauss (u - s)) =
      cK * (∫ u in a..b, gauss u) - cS * ∫ u in a..b, gauss (u - s) := by
    rw [intervalIntegral.integral_sub hfK hfS, intervalIntegral.integral_const_mul,
      intervalIntegral.integral_const_mul]
  have h0 : 0 ≤ cK * (∫ u in a..b, gauss u) - cS * ∫ u in a..b, gauss (u - s) :=
    hsplit ▸ hint
  have hX : 0 ≤ (Real.sqrt (2 * Real.pi))⁻¹ *
      (cK * (∫ u in a..b, gauss u) - cS * ∫ u in a..b, gauss (u - s)) := mul_nonneg hc h0
  have hE : cK * normCdf b - cS * normCdf (b - s) - (cK * normCdf a - cS * normCdf (a - s)) =
      (Real.sqrt (2 * Real.pi))⁻¹ *
        (cK * (∫ u in a..b, gauss u) - cS * ∫ u in a..b, gauss (u - s)) := by
    linear_combination cK * h1 - cS * h2
  linarith

/-- Claim C7: with S, T, sigma fixed and positive, the put price returned by
put_option_price is strictly increasing in the strike K. -/
theorem put_strictMono_strike (S T r sigma : ℝ) (hS : 0 < S) (hT : 0 < T)
    (hsigma : 0 < sigma) (K1 K2 : ℝ) (hK1 : 0 < K1) (h12 : K1 < K2) :
    put_option_price S K1 T r sigma < put_option_price S K2 T r sigma := by
  have hK2 : 0 < K2 := hK1.trans h12
  have hsqT : 0 < Real.sqrt T := Real.sqrt_pos.mpr hT
  have hs : 0 < sigma * Real.sqrt T := mul_pos hsigma hsqT
  have hA : -((Real.log (S / K1) + (r - 0.5 * sigma ^ 2) * T) / (sigma * Real.sqrt T)) <
      -((Real.log (S / K2) + (r - 0.5 * sigma ^ 2) * T) / (sigma * Real.sqrt T)) := by
    have hlog : Real.log (S / K2) < Real.log (S / K1) :=
      Real.log_lt_log (div_pos hS hK2) ((div_lt_div_left hS hK2 hK1).mpr h12)
    have hdiv : (Real.log (S / K2) + (r - 0.5 * sigma ^ 2) * T) / (sigma * Real.sqrt T) <
        (Real.log (S / K1) + (r - 0.5 * sigma ^ 2) * T) / (sigma * Real.sqrt T) :=
      (div_lt_div_right hs).mpr (by linarith)
    linarith
  have hdom : ∀ u, u ≤ -((Real.log (S / K2) + (r - 0.5 * sigma ^ 2) * T) /
      (sigma * Real.sqrt T)) →
      S * gauss (u - sigma * Real.sqrt T) ≤ K2 * Real.exp (-r * T) * gauss u :=
    fun u hu => shift_term_le S K2 T r sigma hS hK2 hT hsigma u hu
  have hkey := weighted_tail_mono
    (-((Real.log (S / K1) + (r - 0.5 * sigma ^ 2) * T) / (sigma * Real.sqrt T)))
    (-((Real.log (S / K2) + (r - 0.5 * sigma ^ 2) * T) / (sigma * Real.sqrt T)))
    (sigma * Real.sqrt T) (K2 * Real.exp (-r * T)) S hA.le hdom
  have htail : K1 * Real.exp (-r * T) *
      normCdf (-((Real.log (S / K1) + (r - 0.5 * sigma ^ 2) * T) / (sigma * Real.sqrt T))) <
      K2 * Real.exp (-r * T) *
      normCdf (-((Real.log (S / K1) + (r - 0.5 * sigma ^ 2) * T) / (sigma * Real.sqrt T))) := by
    have hE : 0 < Real.exp (-r * T) := Real.exp_pos _
    have hphi : 0 < normCdf
        (-((Real.log (S / K1) + (r - 0.5 * sigma ^ 2) * T) / (sigma * Real.sqrt T))) :=
      normCdf_pos _
    have : K1 * Real.exp (-r * T) < K2 * Real.exp (-r * T) :=
      mul_lt_mul_of_pos_right h12 hE
    exact mul_lt_mul_of_pos_right this hphi
  unfold put_option_price
  rw [d1_eq_d2_add S K1 T r sigma hT hsigma, d1_eq_d2_add S K2 T r sigma hT hsigma]
  have hneg : ∀ x : ℝ, -(x + sigma * Real.sqrt T) = -x - sigma * Real.sqrt T :=
    fun x => by ring
  rw [hneg, hneg]
  linarith

/-- Witness for put_strictMono_strike: K=1 versus K=2 at S=1, T=1, r=0, sigma=1. -/
theorem put_strictMono_strike_witness :
    put_option_price 1 1 1 0 1 < put_option_price 1 2 1 0 1 :=
  put_strictMono_strike 1 1 0 1 (by norm_num) (by norm_num) (by norm_num) 1 2
    (by norm_num) (by norm_num)

/-!
Limits of the normal CDF and of the put price as maturity tends to zero.
-/

theorem continuous_normCdf : Continuous normCdf := by
  have h : normCdf = fun x => 1 / 2 + (Real.sqrt (2 * Real.pi))⁻¹ * ∫ t in (0 : ℝ)..x, gauss t :=
    funext normCdf_eq_half_add
  rw [h]
  exact continuous_const.add (continuous_const.mul
    (intervalIntegral.continuous_primitive (fun a b => continuous_gauss.intervalIntegrable a b) 0))

theorem normCdf_tendsto_atTop : Tendsto normCdf atTop (𝓝 1) := by
  have h1 : Tendsto (fun x : ℝ => ∫ t in (0 : ℝ)..x, gauss t) atTop
      (𝓝 (Real.sqrt (2 * Real.pi) / 2)) := by
    have h := MeasureTheory.intervalIntegral_tendsto_integral_Ioi 0
      integrable_gauss.integrableOn tendsto_id
    rwa [integral_gauss_Ioi_zero] at h
  have h2 : Tendsto (fun x : ℝ =>
      1 / 2 + (Real.sqrt (2 * Real.pi))⁻¹ * ∫ t in (0 : ℝ)..x, gauss t) atTop
      (𝓝 (1 / 2 + (Real.sqrt (2 * Real.pi))⁻¹ * (Real.sqrt (2 * Real.pi) / 2))) :=
    tendsto_const_nhds.add (h1.const_mul _)
  have hval : 1 / 2 + (Real.sqrt (2 * Real.pi))⁻¹ * (Real.sqrt (2 * Real.pi) / 2) = 1 := by
    rw [mul_div_assoc', inv_mul_cancel₀ (ne_of_gt sqrt_two_pi_pos)]
    norm_num
  rw [hval] at h2
  exact Tendsto.congr (fun x => (normCdf_eq_half_add x).symm) h2

theorem normCdf_tendsto_atBot : Tendsto normCdf atBot (𝓝 0) := by
  have h1 : Tendsto (fun x : ℝ => normCdf (-x)) atBot (𝓝 1) :=
    normCdf_tendsto_atTop.comp tendsto_neg_atBot_atTop
  have h2 : Tendsto (fun x : ℝ => 1 - normCdf (-x)) atBot (𝓝 (1 - 1)) :=
    tendsto_const_nhds.sub h1
  have h3 : (fun x : ℝ => 1 - normCdf (-x)) = normCdf := by
    funext x
    have := normCdf_neg x
    linarith
  rw [h3] at h2
  simpa using h2

/-- On T > 0 the d-expression splits into an inverse square root part and a
vanishing square root part. -/
theorem d_eventuallyEq (L b sigma : ℝ) (hsigma : 0 < sigma) :
    (fun T : ℝ => (L + b * T) / (sigma * Real.sqrt T)) =ᶠ[𝓝[>] (0 : ℝ)]
      fun T => L / sigma * (Real.sqrt T)⁻¹ + b / sigma * Real.sqrt T := by
  filter_upwards [self_mem_nhdsWithin] with T hT
  have h0 : (0 : ℝ) < T := hT
  have hsq : 0 < Real.sqrt T := Real.sqrt_pos.mpr h0
  have hTs : Real.sqrt T * Real.sqrt T = T := Real.mul_self_sqrt h0.le
  field_simp
  linear_combination (-(b * sigma ^ 2) * Real.sqrt T) * hTs

theorem tendsto_sqrt_nhdsWithin : Tendsto Real.sqrt (𝓝[>] (0 : ℝ)) (𝓝[>] (0 : ℝ)) := by
  rw [tendsto_nhdsWithin_iff]
  constructor
  · have h := Real.continuous_sqrt.tendsto 0
    rw [Real.sqrt_zero] at h
    exact h.mono_left nhdsWithin_le_nhds
  · filter_upwards [self_mem_nhdsWithin] with T hT
    exact Real.sqrt_pos.mpr hT

theorem tendsto_sqrt_zero : Tendsto Real.sqrt (𝓝[>] (0 : ℝ)) (𝓝 0) :=
  tendsto_sqrt_nhdsWithin.mono_right nhdsWithin_le_nhds

theorem tendsto_const_mul_sqrt (c : ℝ) :
    Tendsto (fun T : ℝ => c * Real.sqrt T) (𝓝[>] (0 : ℝ)) (𝓝 0) := by
  have h := tendsto_sqrt_zero.const_mul c
  simpa using h

theorem tendsto_d_atBot (L b sigma : ℝ) (hL : L < 0) (hsigma : 0 < sigma) :
    Tendsto (fun T : ℝ => (L + b * T) / (sigma * Real.sqrt T)) (𝓝[>] (0 : ℝ)) atBot := by
  have hinv : Tendsto (fun T : ℝ => (Real.sqrt T)⁻¹) (𝓝[>] (0 : ℝ)) atTop :=
    tendsto_inv_zero_atTop.comp tendsto_sqrt_nhdsWithin
  have h2 : Tendsto (fun T : ℝ => L / sigma * (Real.sqrt T)⁻¹) (𝓝[>] (0 : ℝ)) atBot :=
    hinv.const_mul_atTop_of_neg (div_neg_of_neg_of_pos hL hsigma)
  have hev : ∀ᶠ T in 𝓝[>] (0 : ℝ), b / sigma * Real.sqrt T ≤ 1 :=
    (tendsto_const_mul_sqrt (b / sigma)).eventually (eventually_le_nhds one_pos)
  exact Tendsto.congr' (d_eventuallyEq L b sigma hsigma).symm
    (tendsto_atBot_add_right_of_ge' _ 1 h2 hev)

theorem tendsto_d_atTop (L b sigma : ℝ) (hL : 0 < L) (hsigma : 0 < sigma) :
    Tendsto (fun T : ℝ => (L + b * T) / (sigma * Real.sqrt T)) (𝓝[>] (0 : ℝ)) atTop := by
  have hinv : Tendsto (fun T : ℝ => (Real.sqrt T)⁻¹) (𝓝[>] (0 : ℝ)) atTop :=
    tendsto_inv_zero_atTop.comp tendsto_sqrt_nhdsWithin
  have h2 : Tendsto (fun T : ℝ => L / sigma * (Real.sqrt T)⁻¹) (𝓝[>] (0 : ℝ)) atTop :=
    hinv.const_mul_atTop (div_pos hL hsigma)
  have hev : ∀ᶠ T in 𝓝[>] (0 : ℝ), (-1 : ℝ) ≤ b / sigma * Real.sqrt T :=
    (tendsto_const_mul_sqrt (b / sigma)).eventually (eventually_ge_nhds (by norm_num))
  exact Tendsto.congr' (d_eventuallyEq L b sigma hsigma).symm
    (tendsto_atTop_add_right_of_le' _ (-1) h2 hev)

theorem tendsto_d_zero (b sigma : ℝ) (hsigma : 0 < sigma) :
    Tendsto (fun T : ℝ => ((0 : ℝ) + b * T) / (sigma * Real.sqrt T)) (𝓝[>] (0 : ℝ)) (𝓝 0) := by
  have key : Tendsto (fun T : ℝ => (0 : ℝ) / sigma * (Real.sqrt T)⁻¹ + b / sigma * Real.sqrt T)
      (𝓝[>] (0 : ℝ)) (𝓝 0) := by
    simpa using tendsto_const_mul_sqrt (b / sigma)
  exact Tendsto.congr' (d_eventuallyEq 0 b sigma hsigma).symm key

theorem tendsto_exp_neg_mul : ∀ r : ℝ,
    Tendsto (fun T : ℝ => Real.exp (-r * T)) (𝓝[>] (0 : ℝ)) (𝓝 1) := by
  intro r
  have hcont : Continuous fun T : ℝ => Real.exp (-r * T) :=
    Real.continuous_exp.comp (continuous_const.mul continuous_id)
  have h := hcont.tendsto 0
  simp only [mul_zero, Real.exp_zero] at h
  exact h.mono_left nhdsWithin_le_nhds

/-- Claim C8: for fixed S > 0, K > 0, sigma > 0 and any real r, the put price
returned by put_option_price converges to the intrinsic value max(K - S, 0)
as the maturity T tends to 0 from above. -/
theorem put_tendsto_intrinsic (S K r sigma : ℝ) (hS : 0 < S) (hK : 0 < K)
    (hsigma : 0 < sigma) :
    Tendsto (fun T => put_option_price S K T r sigma) (𝓝[>] (0 : ℝ))
      (𝓝 (max (K - S) 0)) := by
  have hexp := tendsto_exp_neg_mul r
  unfold put_option_price
  rcases lt_trichotomy S K with hlt | heq | hgt
  · have hL : Real.log (S / K) < 0 :=
      Real.log_neg (div_pos hS hK) ((div_lt_one hK).mpr hlt)
    have hd2 : Tendsto (fun T : ℝ =>
        (Real.log (S / K) + (r - 0.5 * sigma ^ 2) * T) / (sigma * Real.sqrt T))
        (𝓝[>] (0 : ℝ)) atBot := tendsto_d_atBot _ _ _ hL hsigma
    have hd1 : Tendsto (fun T : ℝ =>
        (Real.log (S / K) + (r + 0.5 * sigma ^ 2) * T) / (sigma * Real.sqrt T))
        (𝓝[>] (0 : ℝ)) atBot := tendsto_d_atBot _ _ _ hL hsigma
    have hphi2 : Tendsto (fun T : ℝ => normCdf
        (-((Real.log (S / K) + (r - 0.5 * sigma ^ 2) * T) / (sigma * Real.sqrt T))))
        (𝓝[>] (0 : ℝ)) (𝓝 1) :=
      normCdf_tendsto_atTop.comp (tendsto_neg_atBot_atTop.comp hd2)
    have hphi1 : Tendsto (fun T : ℝ => normCdf
        (-((Real.log (S / K) + (r + 0.5 * sigma ^ 2) * T) / (sigma * Real.sqrt T))))
        (𝓝[>] (0 : ℝ)) (𝓝 1) :=
      normCdf_tendsto_atTop.comp (tendsto_neg_atBot_atTop.comp hd1)
    have hmain := ((hexp.const_mul K).mul hphi2).sub (hphi1.const_mul S)
    have hval : K * 1 * 1 - S * 1 = max (K - S) 0 := by
      rw [max_eq_left (by linarith)]
      ring
    rw [← hval]
    exact hmain
  · subst heq
    simp only [div_self (ne_of_gt hS), Real.log_one]
    have hd2 : Tendsto (fun T : ℝ =>
        ((0 : ℝ) + (r - 0.5 * sigma ^ 2) * T) / (sigma * Real.sqrt T))
        (𝓝[>] (0 : ℝ)) (𝓝 0) := tendsto_d_zero _ _ hsigma
    have hd1 : Tendsto (fun T : ℝ =>
        ((0 : ℝ) + (r + 0.5 * sigma ^ 2) * T) / (sigma * Real.sqrt T))
        (𝓝[>] (0 : ℝ)) (𝓝 0) := tendsto_d_zero _ _ hsigma
    have hphi2 : Tendsto (fun T : ℝ => normCdf
        (-(((0 : ℝ) + (r - 0.5 * sigma ^ 2) * T) / (sigma * Real.sqrt T))))
        (𝓝[>] (0 : ℝ)) (𝓝 (1 / 2)) := by
      have hneg := hd2.neg
      rw [neg_zero] at hneg
      have h := (continuous_normCdf.tendsto 0).comp hneg
      rwa [normCdf_zero] at h
    have hphi1 : Tendsto (fun T : ℝ => normCdf
        (-(((0 : ℝ) + (r + 0.5 * sigma ^ 2) * T) / (sigma * Real.sqrt T))))
        (𝓝[>] (0 : ℝ)) (𝓝 (1 / 2)) := by
      have hneg := hd1.neg
      rw [neg_zero] at hneg
      have h := (continuous_normCdf.tendsto 0).comp hneg
      rwa [normCdf_zero] at h
    have hmain := ((hexp.const_mul S).mul hphi2).sub (hphi1.const_mul S)
    have hval : S * 1 * (1 / 2) - S * (1 / 2) = max (S - S) 0 := by
      simp
    rw [← hval]
    exact hmain
  · have hL : 0 < Real.log (S / K) :=
      Real.log_pos ((one_lt_div hK).mpr hgt)
    have hd2 : Tendsto (fun T : ℝ =>
        (Real.log (S / K) + (r - 0.5 * sigma ^ 2) * T) / (sigma * Real.sqrt T))
        (𝓝[>] (0 : ℝ)) atTop := tendsto_d_atTop _ _ _ hL hsigma
    have hd1 : Tendsto (fun T : ℝ =>
        (Real.log (S / K) + (r + 0.5 * sigma ^ 2) * T) / (sigma * Real.sqrt T))
        (𝓝[>] (0 : ℝ)) atTop := tendsto_d_atTop _ _ _ hL hsigma
    have hphi2 : Tendsto (fun T : ℝ => normCdf
        (-((Real.log (S / K) + (r - 0.5 * sigma ^ 2) * T) / (sigma * Real.sqrt T))))
        (𝓝[>] (0 : ℝ)) (𝓝 0) :=
      normCdf_tendsto_atBot.comp (tendsto_neg_atTop_atBot.comp hd2)
    have hphi1 : Tendsto (fun T : ℝ => normCdf
        (-((Real.log (S / K) + (r + 0.5 * sigma ^ 2) * T) / (sigma * Real.sqrt T))))
        (𝓝[>] (0 : ℝ)) (𝓝 0) :=
      normCdf_tendsto_atBot.comp (tendsto_neg_atTop_atBot.comp hd1)
    have hmain := ((hexp.const_mul K).mul hphi2).sub (hphi1.const_mul S)
    have hval : K * 1 * 0 - S * 0 = max (K - S) 0 := by
      rw [max_eq_right (by linarith)]
      ring
    rw [← hval]
    exact hmain

/-- Witness for put_tendsto_intrinsic at S=1, K=2, r=0, sigma=1. -/
theorem put_tendsto_intrinsic_witness :
    Tendsto (fun T => put_option_price 1 2 T 0 1) (𝓝[>] (0 : ℝ))
      (𝓝 (max ((2 : ℝ) - 1) 0)) :=
  put_tendsto_intrinsic 1 2 0 1 (by norm_num) (by norm_num) (by norm_num)

/-!
Quantitative bounds: Taylor bounds for the Gaussian kernel, polynomial
integrals and rational enclosures of the normalising constant, used to
evaluate the pricing formulas at concrete inputs.
-/

theorem gauss_poly_bounds {t : ℝ} (ht : |t| ≤ 1) :
    1 - t ^ 2 / 2 + t ^ 4 / 8 - t ^ 6 / 36 ≤ gauss t ∧
      gauss t ≤ 1 - t ^ 2 / 2 + t ^ 4 / 8 + t ^ 6 / 36 := by
  have ht2 : t ^ 2 ≤ 1 := by
    have h := sq_abs t
    nlinarith [abs_nonneg t]
  have hxn : -(1 / 2) * t ^ 2 ≤ 0 := by nlinarith [sq_nonneg t]
  have hx : |(-(1 / 2) * t ^ 2)| ≤ 1 := by
    rw [abs_of_nonpos hxn]
    nlinarith
  have hb := Real.exp_bound hx (by norm_num : 0 < 3)
  have hsum : ∑ m ∈ Finset.range 3, (-(1 / 2) * t ^ 2) ^ m / (Nat.factorial m : ℝ) =
      1 - t ^ 2 / 2 + t ^ 4 / 8 := by
    rw [Finset.sum_range_succ, Finset.sum_range_succ, Finset.sum_range_one]
    norm_num [Nat.factorial]
    ring
  rw [hsum, abs_of_nonpos hxn] at hb
  norm_num [Nat.factorial] at hb
  obtain ⟨hlo, hhi⟩ := abs_le.mp hb
  unfold gauss
  have harg : -(1 / 2 : ℝ) * t ^ 2 = -(1 / 2 * t ^ 2) := by ring
  rw [harg]
  constructor <;> nlinarith [hlo, hhi]

theorem integral_poly_lower (a : ℝ) :
    ∫ t in (0 : ℝ)..a, (1 - t ^ 2 / 2 + t ^ 4 / 8 - t ^ 6 / 36) =
      a - a ^ 3 / 6 + a ^ 5 / 40 - a ^ 7 / 252 := by
  have hderiv : ∀ x ∈ uIcc (0 : ℝ) a, HasDerivAt
      (fun u : ℝ => u - u ^ 3 / 6 + u ^ 5 / 40 - u ^ 7 / 252)
      (1 - x ^ 2 / 2 + x ^ 4 / 8 - x ^ 6 / 36) x := by
    intro x _
    have h1 : HasDerivAt (fun u : ℝ => u) 1 x := hasDerivAt_id x
    have h3 : HasDerivAt (fun u : ℝ => u ^ 3) (3 * x ^ 2) x := by
      simpa using hasDerivAt_pow 3 x
    have h5 : HasDerivAt (fun u : ℝ => u ^ 5) (5 * x ^ 4) x := by
      simpa using hasDerivAt_pow 5 x
    have h7 : HasDerivAt (fun u : ℝ => u ^ 7) (7 * x ^ 6) x := by
      simpa using hasDerivAt_pow 7 x
    have h := ((h1.sub (h3.div_const 6)).add (h5.div_const 40)).sub (h7.div_const 252)
    convert h using 1
    ring
  rw [intervalIntegral.integral_eq_sub_of_hasDerivAt hderiv
    ((by continuity : Continuous fun t : ℝ =>
      1 - t ^ 2 / 2 + t ^ 4 / 8 - t ^ 6 / 36).intervalIntegrable 0 a)]
  norm_num

theorem integral_poly_upper (a : ℝ) :
    ∫ t in (0 : ℝ)..a, (1 - t ^ 2 / 2 + t ^ 4 / 8 + t ^ 6 / 36) =
      a - a ^ 3 / 6 + a ^ 5 / 40 + a ^ 7 / 252 := by
  have hderiv : ∀ x ∈ uIcc (0 : ℝ) a, HasDerivAt
      (fun u : ℝ => u - u ^ 3 / 6 + u ^ 5 / 40 + u ^ 7 / 252)
      (1 - x ^ 2 / 2 + x ^ 4 / 8 + x ^ 6 / 36) x := by
    intro x _
    have h1 : HasDerivAt (fun u : ℝ => u) 1 x := hasDerivAt_id x
    have h3 : HasDerivAt (fun u : ℝ => u ^ 3) (3 * x ^ 2) x := by
      simpa using hasDerivAt_pow 3 x
    have h5 : HasDerivAt (fun u : ℝ => u ^ 5) (5 * x ^ 4) x := by
      simpa using hasDerivAt_pow 5 x
    have h7 : HasDerivAt (fun u : ℝ => u ^ 7) (7 * x ^ 6) x := by
      simpa using hasDerivAt_pow 7 x
    have h := ((h1.sub (h3.div_const 6)).add (h5.div_const 40)).add (h7.div_const 252)
    convert h using 1
    ring
  rw [intervalIntegral.integral_eq_sub_of_hasDerivAt hderiv
    ((by continuity : Continuous fun t : ℝ =>
      1 - t ^ 2 / 2 + t ^ 4 / 8 + t ^ 6 / 36).intervalIntegrable 0 a)]
  norm_num

theorem intervalIntegral_gauss_bounds (a : ℝ) (ha : 0 ≤ a) (ha1 : a ≤ 1) :
    a - a ^ 3 / 6 + a ^ 5 / 40 - a ^ 7 / 252 ≤ (∫ t in (0 : ℝ)..a, gauss t) ∧
      (∫ t in (0 : ℝ)..a, gauss t) ≤ a - a ^ 3 / 6 + a ^ 5 / 40 + a ^ 7 / 252 := by
  constructor
  · rw [← integral_poly_lower a]
    apply intervalIntegral.integral_mono_on ha
      ((by continuity : Continuous fun t : ℝ =>
        1 - t ^ 2 / 2 + t ^ 4 / 8 - t ^ 6 / 36).intervalIntegrable 0 a)
      (continuous_gauss.intervalIntegrable 0 a)
    intro x hx
    have hx1 : |x| ≤ 1 := by
      rw [abs_le]
      exact ⟨by linarith [hx.1], by linarith [hx.2]⟩
    exact (gauss_poly_bounds hx1).1
  · rw [← integral_poly_upper a]
    apply intervalIntegral.integral_mono_on ha
      (continuous_gauss.intervalIntegrable 0 a)
      ((by continuity : Continuous fun t : ℝ =>
        1 - t ^ 2 / 2 + t ^ 4 / 8 + t ^ 6 / 36).intervalIntegrable 0 a)
    intro x hx
    have hx1 : |x| ≤ 1 := by
      rw [abs_le]
      exact ⟨by linarith [hx.1], by linarith [hx.2]⟩
    exact (gauss_poly_bounds hx1).2

theorem normCdf_neg_eq (a : ℝ) :
    normCdf (-a) = 1 / 2 - (Real.sqrt (2 * Real.pi))⁻¹ * ∫ t in (0 : ℝ)..a, gauss t := by
  rw [normCdf_neg, normCdf_eq_half_add]
  ring

theorem sqrt_two_pi_lower : (2506625 : ℝ) / 1000000 ≤ Real.sqrt (2 * Real.pi) := by
  have hpi := Real.pi_gt_3141592
  rw [show (2506625 : ℝ) / 1000000 = ((2506625 : ℝ) / 1000000) from rfl]
  apply (Real.le_sqrt (by norm_num) (by positivity)).mpr
  nlinarith

theorem sqrt_two_pi_upper : Real.sqrt (2 * Real.pi) ≤ (2506629 : ℝ) / 1000000 := by
  have hpi := Real.pi_lt_3141593
  have h : (2 * Real.pi) ≤ ((2506629 : ℝ) / 1000000) ^ 2 := by nlinarith
  calc Real.sqrt (2 * Real.pi) ≤ Real.sqrt (((2506629 : ℝ) / 1000000) ^ 2) :=
      Real.sqrt_le_sqrt h
  _ = (2506629 : ℝ) / 1000000 := Real.sqrt_sq (by norm_num)

theorem inv_sqrt_two_pi_bounds :
    (398942 : ℝ) / 1000000 ≤ (Real.sqrt (2 * Real.pi))⁻¹ ∧
      (Real.sqrt (2 * Real.pi))⁻¹ ≤ (398943 : ℝ) / 1000000 := by
  have hlo := sqrt_two_pi_lower
  have hhi := sqrt_two_pi_upper
  have hpos := sqrt_two_pi_pos
  constructor
  · rw [le_inv_comm₀ (by norm_num) hpos]
    calc Real.sqrt (2 * Real.pi) ≤ (2506629 : ℝ) / 1000000 := hhi
    _ ≤ ((398942 : ℝ) / 1000000)⁻¹ := by norm_num
  · rw [inv_le_comm₀ hpos (by norm_num)]
    calc ((398943 : ℝ) / 1000000)⁻¹ ≤ (2506625 : ℝ) / 1000000 := by norm_num
    _ ≤ Real.sqrt (2 * Real.pi) := hlo

theorem inv_sqrt_two_pi_crude :
    (1 : ℝ) / 3 ≤ (Real.sqrt (2 * Real.pi))⁻¹ ∧
      (Real.sqrt (2 * Real.pi))⁻¹ ≤ 2 / 5 := by
  obtain ⟨h1, h2⟩ := inv_sqrt_two_pi_bounds
  constructor
  · calc (1 : ℝ) / 3 ≤ 398942 / 1000000 := by norm_num
    _ ≤ (Real.sqrt (2 * Real.pi))⁻¹ := h1
  · calc (Real.sqrt (2 * Real.pi))⁻¹ ≤ 398943 / 1000000 := h2
    _ ≤ 2 / 5 := by norm_num

theorem exp_neg_twentieth_bounds :
    (951228 : ℝ) / 1000000 ≤ Real.exp (-(1 / 20)) ∧
      Real.exp (-(1 / 20)) ≤ (951230 : ℝ) / 1000000 := by
  have hx : |(-(1 / 20) : ℝ)| ≤ 1 := by
    rw [abs_of_nonpos (by norm_num)]
    norm_num
  have hb := Real.exp_bound hx (by norm_num : 0 < 4)
  have hsum : ∑ m ∈ Finset.range 4, ((-(1 / 20) : ℝ)) ^ m / (Nat.factorial m : ℝ) =
      45659 / 48000 := by
    rw [Finset.sum_range_succ, Finset.sum_range_succ, Finset.sum_range_succ,
      Finset.sum_range_one]
    norm_num [Nat.factorial]
  rw [hsum, abs_of_nonpos (by norm_num : (-(1 / 20) : ℝ) ≤ 0)] at hb
  norm_num [Nat.factorial] at hb
  obtain ⟨hlo, hhi⟩ := abs_le.mp hb
  constructor <;> nlinarith [hlo, hhi]

/-- Upper bound on the central Gaussian integral used for the tail estimate. -/
theorem intervalIntegral_gauss_half_le :
    (∫ t in (0 : ℝ)..(1 / 2 : ℝ), gauss t) ≤ 1 / 2 := by
  have h := intervalIntegral.integral_mono_on (by norm_num : (0 : ℝ) ≤ 1 / 2)
    (continuous_gauss.intervalIntegrable 0 (1 / 2))
    ((continuous_const.intervalIntegrable 0 (1 / 2) :
      IntervalIntegrable (fun _ => (1 : ℝ)) MeasureTheory.volume 0 (1 / 2)))
    (fun x _ => gauss_le_one x)
  simpa using h

/-- Claim C4, counterexample: at S=1, K=1, T=1, r=0, sigma=1 and dividend
yield q = -10 the function put_option_price_div returns a negative price,
refuting the claim that the output is non-negative for every real q. -/
theorem putDiv_negative_at_negative_q :
    put_option_price_div 1 1 1 0 1 (-10) < 0 := by
  have heval : put_option_price_div 1 1 1 0 1 (-10) =
      normCdf (1 / 2) - Real.exp 10 * normCdf (-(1 / 2)) := by
    unfold put_option_price_div
    norm_num [Real.log_one, Real.sqrt_one, Real.exp_zero]
  have h1 : normCdf (1 / 2) ≤ 1 := normCdf_le_one _
  have h2 : (3 : ℝ) / 10 ≤ normCdf (-(1 / 2)) := by
    rw [normCdf_neg_eq]
    have hI := intervalIntegral_gauss_half_le
    have hI0 : 0 ≤ ∫ t in (0 : ℝ)..(1 / 2 : ℝ), gauss t :=
      intervalIntegral.integral_nonneg (by norm_num) fun t _ => gauss_nonneg t
    have hc := inv_sqrt_two_pi_crude.2
    have hc0 : 0 ≤ (Real.sqrt (2 * Real.pi))⁻¹ := (inv_pos.mpr sqrt_two_pi_pos).le
    nlinarith
  have h3 : (11 : ℝ) ≤ Real.exp 10 := by
    have := Real.add_one_le_exp (10 : ℝ)
    linarith
  rw [heval]
  nlinarith [mul_le_mul h3 h2 (by norm_num) (by positivity)]

/-- Shared quantitative core of the q-in-the-drift comparison: at the inputs
S=K=1, T=1, r=0, sigma=1, q=10, the value the code formula produces is
strictly below the value of the formula with q in the drift. -/
theorem drift_value_lt :
    normCdf (1 / 2) - Real.exp (-10) * normCdf (-(1 / 2)) <
      normCdf (21 / 2) - Real.exp (-10) * normCdf (19 / 2) := by
  have hc0 : 0 ≤ (Real.sqrt (2 * Real.pi))⁻¹ := (inv_pos.mpr sqrt_two_pi_pos).le
  have hclo := inv_sqrt_two_pi_crude.1
  have hm : normCdf (5 / 2) ≤ normCdf (21 / 2) := normCdf_mono (by norm_num)
  have hsub := normCdf_sub_normCdf (1 / 2 : ℝ) (5 / 2)
  have hptwise : ∀ x ∈ Icc (1 / 2 : ℝ) (5 / 2), Real.exp (-(25 / 8)) ≤ gauss x := by
    intro x hx
    unfold gauss
    apply Real.exp_le_exp.mpr
    nlinarith [hx.1, hx.2]
  have hint : (2 : ℝ) * Real.exp (-(25 / 8)) ≤ ∫ t in (1 / 2 : ℝ)..(5 / 2 : ℝ), gauss t := by
    have h := intervalIntegral.integral_mono_on (by norm_num : (1 / 2 : ℝ) ≤ 5 / 2)
      ((continuous_const.intervalIntegrable (1 / 2) (5 / 2) :
        IntervalIntegrable (fun _ => Real.exp (-(25 / 8))) MeasureTheory.volume
          (1 / 2) (5 / 2)))
      (continuous_gauss.intervalIntegrable (1 / 2) (5 / 2)) hptwise
    have hconst : (∫ _ in (1 / 2 : ℝ)..(5 / 2 : ℝ), Real.exp (-(25 / 8))) =
        2 * Real.exp (-(25 / 8)) := by
      rw [intervalIntegral.integral_const]
      norm_num
    linarith [hconst ▸ h]
  have hstep1 : (2 / 3 : ℝ) * Real.exp (-(25 / 8)) ≤ normCdf (21 / 2) - normCdf (1 / 2) := by
    nlinarith [mul_le_mul hclo hint (by positivity) hc0]
  have hE : Real.exp (-(10 : ℝ)) < (2 / 3) * Real.exp (-(25 / 8)) := by
    have hsplit : Real.exp (-(10 : ℝ)) = Real.exp (-(25 / 8)) * Real.exp (-(55 / 8)) := by
      rw [← Real.exp_add]
      norm_num
    have hbig : (3 / 2 : ℝ) < Real.exp (55 / 8) := by
      nlinarith [Real.add_one_le_exp (55 / 8 : ℝ)]
    have hsm : Real.exp (-(55 / 8 : ℝ)) < 2 / 3 := by
      rw [Real.exp_neg]
      have hpos := Real.exp_pos (55 / 8 : ℝ)
      have hinv : (Real.exp (55 / 8 : ℝ))⁻¹ * Real.exp (55 / 8 : ℝ) = 1 :=
        inv_mul_cancel₀ (ne_of_gt hpos)
      nlinarith [inv_pos.mpr hpos]
    calc Real.exp (-(10 : ℝ)) = Real.exp (-(25 / 8)) * Real.exp (-(55 / 8)) := hsplit
    _ < Real.exp (-(25 / 8)) * (2 / 3) := by
        exact mul_lt_mul_of_pos_left hsm (Real.exp_pos _)
    _ = (2 / 3) * Real.exp (-(25 / 8)) := by ring
  have hup : Real.exp (-(10 : ℝ)) * normCdf (19 / 2) -
      Real.exp (-(10 : ℝ)) * normCdf (-(1 / 2)) ≤ Real.exp (-(10 : ℝ)) := by
    nlinarith [mul_le_mul_of_nonneg_left (normCdf_le_one (19 / 2 : ℝ))
        (Real.exp_pos (-(10 : ℝ))).le,
      mul_nonneg (Real.exp_pos (-(10 : ℝ))).le (normCdf_nonneg (-(1 / 2 : ℝ)))]
  linarith [hstep1, hE, hup]

/-- Claim C1: the code formula versus the specified formula.  The source
computes d1 and d2 without the dividend yield q; the specified formula has
(r - q + 0.5 sigma^2) in the drift.  At S=K=1, T=1, r=0, sigma=1, q=10 the
two formulas give different values (the code value is strictly smaller), so
put_option_price_div does not return the specified expression. -/
theorem putDiv_lt_specFormula_at_q10 :
    put_option_price_div 1 1 1 0 1 10 < put_option_price_div_specFormula 1 1 1 0 1 10 := by
  have h1 : put_option_price_div 1 1 1 0 1 10 =
      normCdf (1 / 2) - Real.exp (-10) * normCdf (-(1 / 2)) := by
    unfold put_option_price_div
    norm_num [Real.log_one, Real.sqrt_one, Real.exp_zero]
  have h2 : put_option_price_div_specFormula 1 1 1 0 1 10 =
      normCdf (21 / 2) - Real.exp (-10) * normCdf (19 / 2) := by
    unfold put_option_price_div_specFormula
    norm_num [Real.log_one, Real.sqrt_one, Real.exp_zero]
  rw [h1, h2]
  exact drift_value_lt

/-- Claim C3: the dividend-adjusted implementation does not agree with the
non-dividend implementation evaluated on the dividend-discounted spot.  At
S=K=1, T=1, r=0, sigma=1, q=10 the code value put_option_price_div is
strictly below put_option_price (S * exp(-q*T)) K T r sigma. -/
theorem putDiv_lt_put_at_discounted_spot :
    put_option_price_div 1 1 1 0 1 10 <
      put_option_price (1 * Real.exp (-10 * 1)) 1 1 0 1 := by
  have h1 : put_option_price_div 1 1 1 0 1 10 =
      normCdf (1 / 2) - Real.exp (-10) * normCdf (-(1 / 2)) := by
    unfold put_option_price_div
    norm_num [Real.log_one, Real.sqrt_one, Real.exp_zero]
  have h2 : put_option_price (1 * Real.exp (-10 * 1)) 1 1 0 1 =
      normCdf (21 / 2) - Real.exp (-10) * normCdf (19 / 2) := by
    unfold put_option_price
    norm_num [Real.sqrt_one, Real.exp_zero, Real.log_exp]
  rw [h1, h2]
  exact drift_value_lt

/-- Claim C9: at S=100, K=100, T=1, r=0.05, sigma=0.2 the put price returned
by put_option_price differs from 5.57 by at most 0.01. -/
theorem put_price_example_atm :
    |put_option_price 100 100 1 (5 / 100) (2 / 10) - 557 / 100| ≤ 1 / 100 := by
  have heval : put_option_price 100 100 1 (5 / 100) (2 / 10) =
      100 * Real.exp (-(1 / 20)) * normCdf (-(3 / 20)) - 100 * normCdf (-(7 / 20)) := by
    unfold put_option_price
    norm_num [Real.log_one, Real.sqrt_one]
  obtain ⟨hc1, hc2⟩ := inv_sqrt_two_pi_bounds
  obtain ⟨he1, he2⟩ := exp_neg_twentieth_bounds
  obtain ⟨hI1a, hI1b⟩ := intervalIntegral_gauss_bounds (3 / 20) (by norm_num) (by norm_num)
  obtain ⟨hI2a, hI2b⟩ := intervalIntegral_gauss_bounds (7 / 20) (by norm_num) (by norm_num)
  have hI1lo : (149439 : ℝ) / 1000000 ≤ ∫ t in (0 : ℝ)..(3 / 20 : ℝ), gauss t :=
    le_trans (by norm_num) hI1a
  have hI1hi : (∫ t in (0 : ℝ)..(3 / 20 : ℝ), gauss t) ≤ (149440 : ℝ) / 1000000 :=
    le_trans hI1b (by norm_num)
  have hI2lo : (342982 : ℝ) / 1000000 ≤ ∫ t in (0 : ℝ)..(7 / 20 : ℝ), gauss t :=
    le_trans (by norm_num) hI2a
  have hI2hi : (∫ t in (0 : ℝ)..(7 / 20 : ℝ), gauss t) ≤ (342989 : ℝ) / 1000000 :=
    le_trans hI2b (by norm_num)
  rw [heval, normCdf_neg_eq (3 / 20), normCdf_neg_eq (7 / 20)]
  set c := (Real.sqrt (2 * Real.pi))⁻¹ with hcdef
  set I1 := ∫ t in (0 : ℝ)..(3 / 20 : ℝ), gauss t with hI1def
  set I2 := ∫ t in (0 : ℝ)..(7 / 20 : ℝ), gauss t with hI2def
  set E := Real.exp (-(1 / 20 : ℝ)) with hEdef
  have hc0 : (0 : ℝ) ≤ c := le_trans (by norm_num) hc1
  have hI10 : (0 : ℝ) ≤ I1 := le_trans (by norm_num) hI1lo
  have hI20 : (0 : ℝ) ≤ I2 := le_trans (by norm_num) hI2lo
  have hE0 : (0 : ℝ) ≤ E := le_trans (by norm_num) he1
  have hcI1lo : (59617 : ℝ) / 1000000 ≤ c * I1 := by
    have h := mul_le_mul hc1 hI1lo (by norm_num) hc0
    calc (59617 : ℝ) / 1000000 ≤ 398942 / 1000000 * (149439 / 1000000) := by norm_num
    _ ≤ c * I1 := h
  have hcI1hi : c * I1 ≤ (59619 : ℝ) / 1000000 := by
    have h := mul_le_mul hc2 hI1hi hI10 (by norm_num)
    calc c * I1 ≤ 398943 / 1000000 * (149440 / 1000000) := h
    _ ≤ (59619 : ℝ) / 1000000 := by norm_num
  have hA_lo : (440381 : ℝ) / 1000000 ≤ 1 / 2 - c * I1 := by linarith
  have hA_hi : 1 / 2 - c * I1 ≤ (440383 : ℝ) / 1000000 := by linarith
  have hA0 : (0 : ℝ) ≤ 1 / 2 - c * I1 := by linarith
  have hEA_lo : (418902 : ℝ) / 1000000 ≤ E * (1 / 2 - c * I1) := by
    have h := mul_le_mul he1 hA_lo (by norm_num) hE0
    calc (418902 : ℝ) / 1000000 ≤ 951228 / 1000000 * (440381 / 1000000) := by norm_num
    _ ≤ E * (1 / 2 - c * I1) := h
  have hEA_hi : E * (1 / 2 - c * I1) ≤ (418906 : ℝ) / 1000000 := by
    have h := mul_le_mul he2 hA_hi hA0 (by norm_num)
    calc E * (1 / 2 - c * I1) ≤ 951230 / 1000000 * (440383 / 1000000) := h
    _ ≤ (418906 : ℝ) / 1000000 := by norm_num
  have hcI2lo : (136829 : ℝ) / 1000000 ≤ c * I2 := by
    have h := mul_le_mul hc1 hI2lo (by norm_num) hc0
    calc (136829 : ℝ) / 1000000 ≤ 398942 / 1000000 * (342982 / 1000000) := by norm_num
    _ ≤ c * I2 := h
  have hcI2hi : c * I2 ≤ (136834 : ℝ) / 1000000 := by
    have h := mul_le_mul hc2 hI2hi hI20 (by norm_num)
    calc c * I2 ≤ 398943 / 1000000 * (342989 / 1000000) := h
    _ ≤ (136834 : ℝ) / 1000000 := by norm_num
  rw [abs_le]
  constructor
  · nlinarith [hEA_lo, hcI2lo]
  · nlinarith [hEA_hi, hcI2hi]
